import Mathlib

/-!
Shallow embedding of the word-registry core of the light-based neural
processor (`src/EnhancedLightBasedNeuralProcessor.jsx`): the incremental
word registry (`addWords`), the visual encoder (`updateWordData`) and the
greedy prediction walker (`processInput`).

JavaScript `Map`s are modelled as association lists kept in insertion
order (JS `Map` iteration order); `Math.random()` is modelled as an
explicit stream `rng : Nat → ℚ` together with a consumption counter.
The React state array `words` is modelled as an explicit `List WordData`
value; `setWords(updater)` applies the updater to the committed state,
and reads of `words` inside a callback see the state committed before the
callback ran (React's asynchronous state-update semantics).
-/

namespace LightNN

/-- Side length of the wordData texture (`TEXTURE_SIZE` in the source). -/
def TEXTURE_SIZE : Nat := 4096

/-- Capacity bound of the word registry (`MAX_WORDS` in the source). -/
def MAX_WORDS : Nat := 100000

/-- One registry entry (`WordData` interface in the source).  `nextWords`
is the successor-count `Map`, kept as an association list in insertion
order. -/
structure WordData where
  word : String
  frequency : Nat
  hue : ℚ
  saturation : ℚ
  nextWords : List (String × Nat)
deriving Repr, DecidableEq

/-- JS `Map.get` on a successor table: value of the first entry with the
given key. -/
def mapGet (m : List (String × Nat)) (k : String) : Option Nat :=
  (m.find? (fun p => p.1 == k)).map (fun p => p.2)

/-- JS `Map.set` on a successor table: overwrite the value in place if the
key exists (keeping its position), else append the new entry. -/
def mapSet (m : List (String × Nat)) (k : String) (v : Nat) : List (String × Nat) :=
  if m.any (fun p => p.1 == k) then
    m.map (fun p => if p.1 = k then (k, v) else p)
  else m ++ [(k, v)]

/-- JS `Map.get` on the word map keyed by `WordData.word`. -/
def wmGet (m : List WordData) (k : String) : Option WordData :=
  m.find? (fun w => w.word == k)

/-- In-place mutation of the `WordData` object stored under key `k`
(the source mutates the object obtained from `wordMap.get`). -/
def wmUpdate (m : List WordData) (k : String) (f : WordData → WordData) : List WordData :=
  m.map (fun w => if w.word = k then f w else w)

/-- The mutation applied to an existing current word in `addWords`:
`word.frequency += 1; word.nextWords.set(next, (word.nextWords.get(next) || 0) + 1)`. -/
def bumpWord (nextWord : String) (w : WordData) : WordData :=
  { w with
    frequency := w.frequency + 1,
    nextWords := mapSet w.nextWords nextWord (((mapGet w.nextWords nextWord).getD 0) + 1) }

/-- The `WordData` object literal built for a newly created word: one
occurrence, freshly drawn hue and saturation, a single successor entry. -/
def newWordOf (rng : Nat → ℚ) (c : Nat) (currentWord nextWord : String) : WordData :=
  { word := currentWord, frequency := 1, hue := rng c,
    saturation := 1/2 + rng (c+1) * (1/2),
    nextWords := [(nextWord, 1)] }

/-- One iteration of the `for` loop in `addWords`, processing the adjacent
pair `(currentWord, nextWord)`.  The state is the word map together with
the `Math.random()` consumption counter (`hue` is drawn before
`saturation`, object-literal evaluation order). -/
def stepPair (rng : Nat → ℚ) : List WordData × Nat → String × String → List WordData × Nat
  | (m, c), (currentWord, nextWord) =>
    match wmGet m currentWord with
    | some _ => (wmUpdate m currentWord (bumpWord nextWord), c)
    | none =>
      if m.length < MAX_WORDS then (m ++ [newWordOf rng c currentWord nextWord], c + 2)
      else (m, c)

/-- Adjacent pairs `(tokens[i], tokens[i+1])` for `i = 0 .. len-2`. -/
def pairsOf (tokens : List String) : List (String × String) :=
  tokens.zip (tokens.drop 1)

/-- The comparator `(a, b) => b.frequency - a.frequency`: `a` sorts no
later than `b` exactly when `b.frequency ≤ a.frequency`. -/
def freqGe (a b : WordData) : Prop := b.frequency ≤ a.frequency

instance : DecidableRel freqGe := fun a b => Nat.decLe b.frequency a.frequency

instance : IsTotal WordData freqGe := ⟨fun a b => Nat.le_total b.frequency a.frequency⟩

instance : IsTrans WordData freqGe := ⟨fun _ _ _ h1 h2 => le_trans h2 h1⟩

/-- The frequency-descending sort of the word array.  JS
`Array.prototype.sort` is stable, as is insertion sort with this
comparator, and both produce the unique stable frequency-descending
ordering, so they agree. -/
def sortWords (l : List WordData) : List WordData :=
  List.insertionSort freqGe l

/-- The `addWords` callback: build the word map from the previous state
array (JS `new Map` keeps array order), process every adjacent pair, and
return the values sorted by frequency descending.  Returns the new state
array together with the advanced rng counter. -/
def addWords (prevWords : List WordData) (newWords : List String) (rng : Nat → ℚ)
    (c : Nat) : List WordData × Nat :=
  let res := (pairsOf newWords).foldl (stepPair rng) (prevWords, c)
  (sortWords res.1, res.2)

/-- A sequence of `addWords` calls starting from the empty registry. -/
def applyCalls (calls : List (List String)) (rng : Nat → ℚ) : List WordData × Nat :=
  calls.foldl (fun st ts => addWords st.1 ts rng st.2) ([], 0)

/-! Visual encoder (`updateWordData`) -/

/-- Length of the flat `Float32Array` texture buffer. -/
def LEN : Nat := TEXTURE_SIZE * TEXTURE_SIZE * 4

/-- `Math.max(...newWords.map(w => w.frequency))` for a nonempty list
(all registry frequencies are positive, so the `0` seed is inert). -/
def maxFreq (ws : List WordData) : Nat :=
  ws.foldl (fun acc w => max acc w.frequency) 0

/-- Channel `ch` of the grid cell holding the word of rank `cell`. -/
def encodeCell (ws : List WordData) (cell ch : Nat) : ℚ :=
  match ws[cell]? with
  | some w =>
    if ch = 0 then (w.frequency : ℚ) / (maxFreq ws : ℚ)
    else if ch = 1 then w.hue
    else if ch = 2 then w.saturation
    else 1
  | none => 0

/-- The `updateWordData` callback as a transformer of the texture
contents: a fresh zero-initialised `Float32Array` of length `LEN` is
filled for ranks below `newWords.length` (writes at or past `LEN` are
silently dropped, as JS typed-array out-of-bounds writes are), and the
whole buffer is uploaded with `texSubImage2D`, replacing every texel of
the texture. -/
def updateWordData (newWords : List WordData) (tex : Nat → ℚ) : Nat → ℚ :=
  fun p =>
    if p < LEN then
      (if p / 4 < newWords.length then encodeCell newWords (p / 4) (p % 4) else 0)
    else tex p

/-! Prediction walker (`processInput`) -/

/-- The comparator `(a, b) => b[1] - a[1]` on successor entries. -/
def pairGe (a b : String × Nat) : Prop := b.2 ≤ a.2

instance : DecidableRel pairGe := fun a b => Nat.decLe b.2 a.2

instance : IsTotal (String × Nat) pairGe := ⟨fun a b => Nat.le_total b.2 a.2⟩

instance : IsTrans (String × Nat) pairGe := ⟨fun _ _ _ h1 h2 => le_trans h2 h1⟩

/-- Stable count-descending sort of a successor table (a fresh array:
the `Map` itself is not mutated). -/
def sortPairs (l : List (String × Nat)) : List (String × Nat) :=
  List.insertionSort pairGe l

/-- `nextWords.sort((a,b) => b[1]-a[1]); nextWords[0][0]` — the chosen
successor, or `none` when the table is empty. -/
def pickNext (l : List (String × Nat)) : Option String :=
  (sortPairs l).head?.map (fun p => p.1)

/-- The greedy walk of `processInput`: up to `n` steps, each looking up
`current` in the state array `ws`, stopping when it is absent or has an
empty successor table, else appending the chosen successor. -/
def generateWalk (ws : List WordData) : String → Nat → List String
  | _, 0 => []
  | current, n+1 =>
    match wmGet ws current with
    | none => []
    | some w =>
      match pickNext w.nextWords with
      | none => []
      | some nw => nw :: generateWalk ws nw n

/-- The `processInput` callback on an already tokenised phrase: truncate
to 10 tokens, feed them through `addWords`, then walk for up to 10 steps
starting from the last token.  The walk reads the `words` closure
variable, which holds the state committed before the callback ran — the
`setWords` update enqueued by `addWords` is not yet applied — so the walk
runs on `ws`, not on the post-ingestion registry.  Returns the new
registry state (what `setWords` will commit) and the output word list. -/
def processInput (ws : List WordData) (inputTokens : List String) (rng : Nat → ℚ)
    (c : Nat) : (List WordData × Nat) × List String :=
  let inputWords := inputTokens.take 10
  let newState := addWords ws inputWords rng c
  let output :=
    match inputWords.getLast? with
    | none => []
    | some lastWord => generateWalk ws lastWord 10
  (newState, output)

/-! Auxiliary notions used by the statements -/

/-- A concrete `Math.random()` stream used for closed test instances. -/
def rngHalf : Nat → ℚ := fun _ => 1/2

/-- Total of the successor counts of one word. -/
def sumCounts (m : List (String × Nat)) : Nat :=
  (m.map (fun p => p.2)).sum

/-- Reachable-state invariant: every word counts exactly as many
occurrences as its successor table records, and successor keys are
unique. -/
def RegInv (m : List WordData) : Prop :=
  ∀ w ∈ m, w.frequency = sumCounts w.nextWords ∧ (w.nextWords.map (fun p => p.1)).Nodup

/-- The registry in true creation order: the same pair processing as the
code, but without the per-call re-sorting, so entries remain in the order
in which they were first created.  (Branch decisions in `stepPair` depend
only on key membership and map size, which re-sorting does not change.) -/
def creationOrderReg (calls : List (List String)) (rng : Nat → ℚ) : List WordData :=
  (calls.foldl (fun st ts => (pairsOf ts).foldl (stepPair rng) st) ([], 0)).1

/-- Ordering defined by the spec's words: entries sorted by frequency
descending with ties broken by insertion order, first-inserted first —
that is, a stable frequency-descending sort of the creation-ordered
registry. -/
def specSnapshot (calls : List (List String)) (rng : Nat → ℚ) : List WordData :=
  sortWords (creationOrderReg calls rng)

/-- Registry state after feeding `["a","b","a","b"]` twice and then
`["a","b"]`, from empty. -/
def demo6 : List WordData :=
  (applyCalls [["a","b","a","b"], ["a","b","a","b"], ["a","b"]] rngHalf).1

/-- Three ingestion calls whose tied words end up ordered against
insertion order. -/
def demo3calls : List (List String) := [["a","a"], ["b","b","b"], ["a","a"]]

/-- Registry state after the three `demo3calls` ingestions. -/
def demo3 : List WordData := (applyCalls demo3calls rngHalf).1

/-- Sample word entries for closed instances. -/
def wA2 : WordData := ⟨"a", 2, 1/2, 3/4, [("b", 2)]⟩

/-- Second sample word entry. -/
def wB1 : WordData := ⟨"b", 1, 1/2, 3/4, [("a", 1)]⟩

/-- Filler word entry used to build registries at capacity. -/
def wZ1 : WordData := ⟨"z", 1, 1/2, 3/4, [("q", 1)]⟩

/-- A registry holding exactly `MAX_WORDS` entries whose first word is
`"a"`. -/
def bigRegA : List WordData := wA2 :: List.replicate 99999 wZ1

/-- A registry holding exactly `MAX_WORDS` entries, none named `"a"`. -/
def bigRegZ : List WordData := List.replicate 100000 wZ1

/-- The word that ingesting `["a","b"]` into the empty registry creates
(hue and saturation left as the unevaluated draws from `rngHalf`). -/
def wABword : WordData :=
  ⟨"a", 1, rngHalf 0, 1/2 + rngHalf (0+1) * (1/2), [("b", 1)]⟩

/-! Association-list lemmas (JS `Map` semantics) -/

theorem bumpWord_word (nextWord : String) (w : WordData) :
    (bumpWord nextWord w).word = w.word := rfl

theorem mapGet_nil (k : String) : mapGet [] k = none := rfl

theorem mapGet_cons (p : String × Nat) (t : List (String × Nat)) (k : String) :
    mapGet (p :: t) k = if p.1 = k then some p.2 else mapGet t k := by
  by_cases h : p.1 = k
  · rw [mapGet, List.find?_cons_of_pos _ (by simpa using h), if_pos h]
    rfl
  · rw [mapGet, List.find?_cons_of_neg _ (by simpa using h), if_neg h]
    rfl

theorem mapSet_cons_ne (p : String × Nat) (t : List (String × Nat)) (k : String) (v : Nat)
    (h : p.1 ≠ k) : mapSet (p :: t) k v = p :: mapSet t k v := by
  have hb : (p.1 == k) = false := by simpa using h
  have hany : (p :: t).any (fun q => q.1 == k) = t.any (fun q => q.1 == k) := by
    rw [List.any_cons, hb, Bool.false_or]
  by_cases ht : t.any (fun q => q.1 == k) = true
  · simp [mapSet, hany, ht, h]
  · have htf : t.any (fun q => q.1 == k) = false := Bool.eq_false_iff.mpr ht
    simp [mapSet, hany, htf, h]

theorem mapGet_mapSet_self (m : List (String × Nat)) (k : String) (v : Nat) :
    mapGet (mapSet m k v) k = some v := by
  induction m with
  | nil => simp [mapSet, mapGet]
  | cons p t ih =>
    by_cases h : p.1 = k
    · have hb : (p.1 == k) = true := by simpa using h
      have hset : mapSet (p :: t) k v
          = (k, v) :: t.map (fun q => if q.1 = k then (k, v) else q) := by
        simp [mapSet, List.any_cons, hb, h]
      rw [hset, mapGet_cons, if_pos rfl]
    · rw [mapSet_cons_ne p t k v h, mapGet_cons, if_neg h, ih]

theorem mapGet_none_any_false (m : List (String × Nat)) (k : String)
    (h : mapGet m k = none) : m.any (fun p => p.1 == k) = false := by
  induction m with
  | nil => rfl
  | cons p t ih =>
    rw [mapGet_cons] at h
    by_cases hp : p.1 = k
    · rw [if_pos hp] at h
      exact absurd h (by simp)
    · rw [if_neg hp] at h
      have hb : (p.1 == k) = false := by simpa using hp
      rw [List.any_cons, hb, Bool.false_or]
      exact ih h

theorem mapSet_of_absent (m : List (String × Nat)) (k : String) (v : Nat)
    (h : mapGet m k = none) : mapSet m k v = m ++ [(k, v)] := by
  simp [mapSet, mapGet_none_any_false m k h]

theorem mapGet_append_single_ne (m : List (String × Nat)) (k k2 : String) (v : Nat)
    (h : k ≠ k2) : mapGet (m ++ [(k, v)]) k2 = mapGet m k2 := by
  induction m with
  | nil => rw [List.nil_append, mapGet_cons, if_neg h]
  | cons p t ih =>
    rw [List.cons_append, mapGet_cons, mapGet_cons]
    by_cases hp : p.1 = k2
    · rw [if_pos hp, if_pos hp]
    · rw [if_neg hp, if_neg hp, ih]

theorem mapGet_mapOverwrite_ne (t : List (String × Nat)) (k k2 : String) (v : Nat)
    (h : k ≠ k2) :
    mapGet (t.map (fun q => if q.1 = k then (k, v) else q)) k2 = mapGet t k2 := by
  induction t with
  | nil => rfl
  | cons p t ih =>
    rw [List.map_cons, mapGet_cons, mapGet_cons]
    by_cases hp : p.1 = k
    · have hp2 : ¬ p.1 = k2 := fun hc => h (hp.symm.trans hc)
      rw [if_pos hp, if_neg h, if_neg hp2, ih]
    · rw [if_neg hp]
      by_cases hq : p.1 = k2
      · rw [if_pos hq, if_pos hq]
      · rw [if_neg hq, if_neg hq, ih]

theorem mapGet_mapSet_ne (m : List (String × Nat)) (k k2 : String) (v : Nat)
    (h : k ≠ k2) : mapGet (mapSet m k v) k2 = mapGet m k2 := by
  by_cases ha : m.any (fun p => p.1 == k) = true
  · have hset : mapSet m k v = m.map (fun q => if q.1 = k then (k, v) else q) := by
      simp [mapSet, ha]
    rw [hset]
    exact mapGet_mapOverwrite_ne m k k2 v h
  · have haf : m.any (fun p => p.1 == k) = false := Bool.eq_false_iff.mpr ha
    have hset : mapSet m k v = m ++ [(k, v)] := by simp [mapSet, haf]
    rw [hset]
    exact mapGet_append_single_ne m k k2 v h

theorem wmGet_nil (k : String) : wmGet [] k = none := rfl

theorem wmGet_cons (w : WordData) (t : List WordData) (k : String) :
    wmGet (w :: t) k = if w.word = k then some w else wmGet t k := by
  by_cases h : w.word = k
  · rw [wmGet, List.find?_cons_of_pos _ (by simpa using h), if_pos h]
  · rw [wmGet, List.find?_cons_of_neg _ (by simpa using h), if_neg h]
    rfl

theorem wmUpdate_cons (w : WordData) (t : List WordData) (k : String)
    (f : WordData → WordData) :
    wmUpdate (w :: t) k f = (if w.word = k then f w else w) :: wmUpdate t k f := rfl

theorem wmGet_wmUpdate_bump (m : List WordData) (k n : String) :
    wmGet (wmUpdate m k (bumpWord n)) k = (wmGet m k).map (bumpWord n) := by
  induction m with
  | nil => rfl
  | cons w t ih =>
    rw [wmUpdate_cons, wmGet_cons w t k]
    by_cases h : w.word = k
    · rw [if_pos h, if_pos h, wmGet_cons, if_pos (show (bumpWord n w).word = k from h)]
      rfl
    · rw [if_neg h, if_neg h, wmGet_cons, if_neg h, ih]

/-! C1: the per-pair contract of addWords -/

/-- C1: `addWords` folds the pair-step over every adjacent token pair, and
each pair step obeys the three-way rule: an existing current word gets its
frequency incremented by 1 and its successor count for `next` incremented
by 1 (created at 1 if absent, all other successor entries untouched); a
new current word under capacity is created with frequency 1, a random hue
in [0,1), saturation in [1/2,1) and successor table `{next: 1}`; a new
current word with the registry at capacity causes no mutation at all. -/
theorem addWords_pair_contract (rng : Nat → ℚ) (hr : ∀ n, 0 ≤ rng n ∧ rng n < 1) :
    (∀ prevWords ts c, addWords prevWords ts rng c =
      (sortWords ((pairsOf ts).foldl (stepPair rng) (prevWords, c)).1,
       ((pairsOf ts).foldl (stepPair rng) (prevWords, c)).2)) ∧
    (∀ m c cur next w, wmGet m cur = some w →
      stepPair rng (m, c) (cur, next) = (wmUpdate m cur (bumpWord next), c) ∧
      wmGet (wmUpdate m cur (bumpWord next)) cur = some (bumpWord next w) ∧
      (bumpWord next w).frequency = w.frequency + 1 ∧
      mapGet (bumpWord next w).nextWords next
        = some ((mapGet w.nextWords next).getD 0 + 1) ∧
      (∀ k, next ≠ k →
        mapGet (bumpWord next w).nextWords k = mapGet w.nextWords k)) ∧
    (∀ m c cur next, wmGet m cur = none → m.length < MAX_WORDS →
      stepPair rng (m, c) (cur, next) = (m ++ [newWordOf rng c cur next], c + 2) ∧
      (newWordOf rng c cur next).frequency = 1 ∧
      (newWordOf rng c cur next).nextWords = [(next, 1)] ∧
      0 ≤ (newWordOf rng c cur next).hue ∧ (newWordOf rng c cur next).hue < 1 ∧
      1/2 ≤ (newWordOf rng c cur next).saturation ∧
      (newWordOf rng c cur next).saturation < 1) ∧
    (∀ m c cur next, wmGet m cur = none → ¬ m.length < MAX_WORDS →
      stepPair rng (m, c) (cur, next) = (m, c)) := by
  refine ⟨fun prevWords ts c => rfl, ?_, ?_, ?_⟩
  · intro m c cur next w hw
    refine ⟨by simp [stepPair, hw], ?_, rfl, ?_, ?_⟩
    · rw [wmGet_wmUpdate_bump, hw]; rfl
    · exact mapGet_mapSet_self _ _ _
    · intro k hk
      exact mapGet_mapSet_ne _ _ _ _ hk
  · intro m c cur next hw hlen
    refine ⟨by simp [stepPair, hw, hlen], rfl, rfl, (hr c).1, (hr c).2, ?_, ?_⟩
    · have h0 := (hr (c + 1)).1
      show (1 : ℚ)/2 ≤ 1/2 + rng (c+1) * (1/2)
      nlinarith
    · have h1 := (hr (c + 1)).2
      show (1 : ℚ)/2 + rng (c+1) * (1/2) < 1
      nlinarith
  · intro m c cur next hw hlen
    simp [stepPair, hw, hlen]

/-- C1 witness: the contract applied to a one-word registry and to the
empty registry with the concrete stream `rngHalf`. -/
theorem addWords_pair_contract_witness :
    stepPair rngHalf ([wA2], 0) ("a", "b") = (wmUpdate [wA2] "a" (bumpWord "b"), 0) ∧
    stepPair rngHalf ([], 0) ("a", "b") = ([newWordOf rngHalf 0 "a" "b"], 2) := by
  have h := addWords_pair_contract rngHalf
    (fun n => ⟨by norm_num [rngHalf], by norm_num [rngHalf]⟩)
  exact ⟨(h.2.1 [wA2] 0 "a" "b" wA2 (by rfl)).1,
         (h.2.2.1 [] 0 "a" "b" rfl (by norm_num [MAX_WORDS])).1⟩

/-! Length and membership lemmas (C2) -/

theorem wmUpdate_length (m : List WordData) (k : String) (f : WordData → WordData) :
    (wmUpdate m k f).length = m.length := List.length_map _ _

theorem stepPair_cases (rng : Nat → ℚ) (m : List WordData) (c : Nat) (cur next : String) :
    stepPair rng (m, c) (cur, next) = (wmUpdate m cur (bumpWord next), c) ∨
    (stepPair rng (m, c) (cur, next) = (m ++ [newWordOf rng c cur next], c + 2) ∧
      m.length < MAX_WORDS) ∨
    stepPair rng (m, c) (cur, next) = (m, c) := by
  cases hw : wmGet m cur with
  | some w => exact Or.inl (by simp [stepPair, hw])
  | none =>
    by_cases hl : m.length < MAX_WORDS
    · exact Or.inr (Or.inl ⟨by simp [stepPair, hw, hl], hl⟩)
    · exact Or.inr (Or.inr (by simp [stepPair, hw, hl]))

theorem stepPair_length_le (rng : Nat → ℚ) (m : List WordData) (c : Nat)
    (cur next : String) :
    m.length ≤ ((stepPair rng (m, c) (cur, next)).1).length := by
  rcases stepPair_cases rng m c cur next with h | ⟨h, _⟩ | h
  · rw [h]
    exact Nat.le_of_eq (wmUpdate_length m cur (bumpWord next)).symm
  · rw [h]
    simp
  · rw [h]

theorem stepPair_length_cap (rng : Nat → ℚ) (m : List WordData) (c : Nat)
    (cur next : String) (h : m.length ≤ MAX_WORDS) :
    ((stepPair rng (m, c) (cur, next)).1).length ≤ MAX_WORDS := by
  rcases stepPair_cases rng m c cur next with h2 | ⟨h2, hlt⟩ | h2
  · rw [h2]
    rw [show ((wmUpdate m cur (bumpWord next), c)).1 = wmUpdate m cur (bumpWord next) from rfl,
      wmUpdate_length]
    exact h
  · rw [h2]
    simp only [List.length_append, List.length_singleton]
    exact hlt
  · rw [h2]
    exact h

theorem foldPairs_length_le (rng : Nat → ℚ) (ps : List (String × String)) :
    ∀ m c, m.length ≤ ((ps.foldl (stepPair rng) (m, c)).1).length := by
  induction ps with
  | nil => intro m c; exact Nat.le_refl _
  | cons p ps ih =>
    intro m c
    rw [List.foldl_cons]
    exact le_trans (stepPair_length_le rng m c p.1 p.2)
      (ih (stepPair rng (m, c) p).1 (stepPair rng (m, c) p).2)

theorem foldPairs_length_cap (rng : Nat → ℚ) (ps : List (String × String)) :
    ∀ m c, m.length ≤ MAX_WORDS →
      ((ps.foldl (stepPair rng) (m, c)).1).length ≤ MAX_WORDS := by
  induction ps with
  | nil => intro m c h; exact h
  | cons p ps ih =>
    intro m c h
    rw [List.foldl_cons]
    exact ih (stepPair rng (m, c) p).1 (stepPair rng (m, c) p).2
      (stepPair_length_cap rng m c p.1 p.2 h)

theorem sortWords_perm (l : List WordData) : List.Perm (sortWords l) l :=
  List.perm_insertionSort freqGe l

theorem sortWords_length (l : List WordData) : (sortWords l).length = l.length :=
  (sortWords_perm l).length_eq

theorem sortWords_mem (w : WordData) (l : List WordData) : w ∈ sortWords l ↔ w ∈ l :=
  (sortWords_perm l).mem_iff

theorem addWords_length_le (prevWords : List WordData) (ts : List String) (rng : Nat → ℚ)
    (c : Nat) : prevWords.length ≤ ((addWords prevWords ts rng c).1).length := by
  show prevWords.length ≤ (sortWords ((pairsOf ts).foldl (stepPair rng) (prevWords, c)).1).length
  rw [sortWords_length]
  exact foldPairs_length_le rng (pairsOf ts) prevWords c

theorem addWords_length_cap (prevWords : List WordData) (ts : List String) (rng : Nat → ℚ)
    (c : Nat) (h : prevWords.length ≤ MAX_WORDS) :
    ((addWords prevWords ts rng c).1).length ≤ MAX_WORDS := by
  show (sortWords ((pairsOf ts).foldl (stepPair rng) (prevWords, c)).1).length ≤ MAX_WORDS
  rw [sortWords_length]
  exact foldPairs_length_cap rng (pairsOf ts) prevWords c h

theorem applyCalls_length_cap_aux (rng : Nat → ℚ) (calls : List (List String)) :
    ∀ st : List WordData × Nat, st.1.length ≤ MAX_WORDS →
      ((calls.foldl (fun st ts => addWords st.1 ts rng st.2) st).1).length ≤ MAX_WORDS := by
  induction calls with
  | nil => intro st h; exact h
  | cons ts calls ih =>
    intro st h
    rw [List.foldl_cons]
    exact ih (addWords st.1 ts rng st.2) (addWords_length_cap st.1 ts rng st.2 h)

theorem mem_words_wmUpdate_bump (m : List WordData) (k n : String) :
    (wmUpdate m k (bumpWord n)).map (fun w => w.word) = m.map (fun w => w.word) := by
  unfold wmUpdate
  rw [List.map_map]
  apply List.map_congr_left
  intro w hw
  by_cases hwk : w.word = k
  · simp only [Function.comp_apply]
    rw [if_pos hwk, bumpWord_word]
  · simp only [Function.comp_apply]
    rw [if_neg hwk]

theorem stepPair_mem_word (rng : Nat → ℚ) (m : List WordData) (c : Nat) (cur next s : String)
    (h : s ∈ m.map (fun w => w.word)) :
    s ∈ ((stepPair rng (m, c) (cur, next)).1).map (fun w => w.word) := by
  rcases stepPair_cases rng m c cur next with h2 | ⟨h2, _⟩ | h2
  · rw [h2]
    show s ∈ (wmUpdate m cur (bumpWord next)).map (fun w => w.word)
    rw [mem_words_wmUpdate_bump]
    exact h
  · rw [h2]
    show s ∈ (m ++ [newWordOf rng c cur next]).map (fun w => w.word)
    rw [List.map_append]
    exact List.mem_append_left _ h
  · rw [h2]
    exact h

theorem foldPairs_mem_word (rng : Nat → ℚ) (ps : List (String × String)) :
    ∀ m c s, s ∈ m.map (fun w => w.word) →
      s ∈ ((ps.foldl (stepPair rng) (m, c)).1).map (fun w => w.word) := by
  induction ps with
  | nil => intro m c s h; exact h
  | cons p ps ih =>
    intro m c s h
    rw [List.foldl_cons]
    exact ih (stepPair rng (m, c) p).1 (stepPair rng (m, c) p).2 s
      (stepPair_mem_word rng m c p.1 p.2 s h)

theorem sortWords_mem_word (l : List WordData) (s : String) :
    s ∈ (sortWords l).map (fun w => w.word) ↔ s ∈ l.map (fun w => w.word) :=
  ((sortWords_perm l).map (fun w => w.word)).mem_iff

/-! C2: capacity bound and monotone growth of the registry -/

/-- C2: from the empty registry every sequence of addWords calls keeps the
word count at or below MAX_WORDS = 100000; a single addWords call never
shrinks the registry; and every word text present before a call is still
present after it (no deletion, renaming or merging). -/
theorem registry_capacity_monotone :
    (∀ calls rng, ((applyCalls calls rng).1).length ≤ MAX_WORDS) ∧
    (∀ prevWords ts rng c,
      prevWords.length ≤ ((addWords prevWords ts rng c).1).length) ∧
    (∀ prevWords ts rng c s, s ∈ prevWords.map (fun w => w.word) →
      s ∈ ((addWords prevWords ts rng c).1).map (fun w => w.word)) := by
  refine ⟨?_, addWords_length_le, ?_⟩
  · intro calls rng
    exact applyCalls_length_cap_aux rng calls ([], 0) (Nat.zero_le MAX_WORDS)
  · intro prevWords ts rng c s h
    show s ∈ (sortWords ((pairsOf ts).foldl (stepPair rng) (prevWords, c)).1).map
      (fun w => w.word)
    rw [sortWords_mem_word]
    exact foldPairs_mem_word rng (pairsOf ts) prevWords c s h

/-- C2 witness: the word "a" survives an ingestion call on a registry that
contains it. -/
theorem registry_capacity_monotone_witness :
    "a" ∈ ((addWords [wA2] ["x", "y"] rngHalf 0).1).map (fun w => w.word) :=
  registry_capacity_monotone.2.2 [wA2] ["x", "y"] rngHalf 0 "a" (by decide)

/-! C10: frequency equals the successor-count total -/

theorem sumCounts_cons (p : String × Nat) (t : List (String × Nat)) :
    sumCounts (p :: t) = p.2 + sumCounts t := by
  simp [sumCounts]

theorem sumCounts_mapSet_bump (m : List (String × Nat)) (k : String)
    (hnd : (m.map (fun p => p.1)).Nodup) :
    sumCounts (mapSet m k ((mapGet m k).getD 0 + 1)) = sumCounts m + 1 := by
  induction m with
  | nil => rfl
  | cons p t ih =>
    rw [List.map_cons, List.nodup_cons] at hnd
    obtain ⟨hp_not, hnd_t⟩ := hnd
    by_cases h : p.1 = k
    · have hget : mapGet (p :: t) k = some p.2 := by rw [mapGet_cons, if_pos h]
      have hb : (p.1 == k) = true := by simpa using h
      have hany : (p :: t).any (fun q => q.1 == k) = true := by
        simp [List.any_cons, hb]
      have hmap : t.map
          (fun q => if q.1 = k then (k, (mapGet (p :: t) k).getD 0 + 1) else q) = t := by
        have hmem : ∀ q ∈ t, q.1 ≠ k := by
          intro q hq hqk
          exact hp_not (by rw [h, ← hqk]; exact List.mem_map_of_mem (fun p => p.1) hq)
        calc t.map (fun q => if q.1 = k then (k, (mapGet (p :: t) k).getD 0 + 1) else q)
            = t.map id := List.map_congr_left (fun q hq => if_neg (hmem q hq))
          _ = t := List.map_id t
      have hset : mapSet (p :: t) k ((mapGet (p :: t) k).getD 0 + 1)
          = (k, p.2 + 1) :: t := by
        rw [mapSet, if_pos hany, List.map_cons, if_pos h, hmap, hget]
        rfl
      rw [hset, sumCounts_cons, sumCounts_cons]
      omega
    · have hget : mapGet (p :: t) k = mapGet t k := by rw [mapGet_cons, if_neg h]
      rw [hget, mapSet_cons_ne p t k _ h, sumCounts_cons, sumCounts_cons, ih hnd_t]
      omega

theorem keys_mapSet_nodup (m : List (String × Nat)) (k : String) (v : Nat)
    (hnd : (m.map (fun p => p.1)).Nodup) :
    ((mapSet m k v).map (fun p => p.1)).Nodup := by
  by_cases ha : m.any (fun p => p.1 == k) = true
  · have hset : mapSet m k v = m.map (fun q => if q.1 = k then (k, v) else q) := by
      simp [mapSet, ha]
    have hkeys : (mapSet m k v).map (fun p => p.1) = m.map (fun p => p.1) := by
      rw [hset, List.map_map]
      apply List.map_congr_left
      intro q hq
      by_cases hqk : q.1 = k
      · simp only [Function.comp_apply]
        rw [if_pos hqk, hqk]
      · simp only [Function.comp_apply]
        rw [if_neg hqk]
    rw [hkeys]
    exact hnd
  · have haf := Bool.eq_false_iff.mpr ha
    have hset : mapSet m k v = m ++ [(k, v)] := by simp [mapSet, haf]
    rw [hset, List.map_append]
    refine List.Nodup.append hnd (List.nodup_singleton k) ?_
    intro a ha1 ha2
    simp only [List.map_cons, List.map_nil, List.mem_singleton] at ha2
    rw [ha2] at ha1
    obtain ⟨q, hq, hqk⟩ := List.mem_map.mp ha1
    have hqb : (q.1 == k) = true := by simpa using hqk
    have hcontra : m.any (fun p => p.1 == k) = true := List.any_eq_true.mpr ⟨q, hq, hqb⟩
    rw [haf] at hcontra
    exact Bool.false_ne_true hcontra

theorem regInv_stepPair (rng : Nat → ℚ) (m : List WordData) (c : Nat) (cur next : String)
    (h : RegInv m) : RegInv ((stepPair rng (m, c) (cur, next)).1) := by
  rcases stepPair_cases rng m c cur next with h2 | ⟨h2, _⟩ | h2
  · rw [h2]
    intro w2 hw2
    obtain ⟨w, hw, hgw⟩ := List.mem_map.mp hw2
    obtain ⟨hfreq, hnod⟩ := h w hw
    by_cases hwk : w.word = cur
    · rw [if_pos hwk] at hgw
      subst hgw
      constructor
      · show w.frequency + 1 = sumCounts (mapSet w.nextWords next _)
        rw [sumCounts_mapSet_bump w.nextWords next hnod, hfreq]
      · exact keys_mapSet_nodup w.nextWords next _ hnod
    · rw [if_neg hwk] at hgw
      subst hgw
      exact ⟨hfreq, hnod⟩
  · rw [h2]
    intro w2 hw2
    rcases List.mem_append.mp hw2 with hin | hin
    · exact h w2 hin
    · rw [List.mem_singleton] at hin
      subst hin
      refine ⟨?_, ?_⟩
      · show (1 : Nat) = sumCounts [(next, 1)]
        rfl
      · show ([(next, 1)].map (fun p => p.1)).Nodup
        exact List.nodup_singleton next
  · rw [h2]
    exact h

theorem regInv_foldPairs (rng : Nat → ℚ) (ps : List (String × String)) :
    ∀ m c, RegInv m → RegInv ((ps.foldl (stepPair rng) (m, c)).1) := by
  induction ps with
  | nil => intro m c h; exact h
  | cons p ps ih =>
    intro m c h
    rw [List.foldl_cons]
    exact ih (stepPair rng (m, c) p).1 (stepPair rng (m, c) p).2
      (regInv_stepPair rng m c p.1 p.2 h)

theorem regInv_addWords (prevWords : List WordData) (ts : List String) (rng : Nat → ℚ)
    (c : Nat) (h : RegInv prevWords) : RegInv ((addWords prevWords ts rng c).1) := by
  intro w hw
  have hw2 : w ∈ ((pairsOf ts).foldl (stepPair rng) (prevWords, c)).1 :=
    (sortWords_mem w _).mp hw
  exact regInv_foldPairs rng (pairsOf ts) prevWords c h w hw2

theorem regInv_applyCalls (calls : List (List String)) (rng : Nat → ℚ) :
    RegInv ((applyCalls calls rng).1) := by
  have aux : ∀ st : List WordData × Nat, RegInv st.1 →
      RegInv ((calls.foldl (fun st ts => addWords st.1 ts rng st.2) st).1) := by
    induction calls with
    | nil => intro st h; exact h
    | cons ts calls ih =>
      intro st h
      rw [List.foldl_cons]
      exact ih (addWords st.1 ts rng st.2) (regInv_addWords st.1 ts rng st.2 h)
  exact aux ([], 0) (fun w hw => absurd hw (List.not_mem_nil w))

/-- C10: in every registry state reachable from the empty registry by
addWords calls, each word counts exactly as many occurrences as its
successor table records: frequency equals the sum of the successor
counts. -/
theorem frequency_eq_successor_sum (calls : List (List String)) (rng : Nat → ℚ)
    (w : WordData) (hw : w ∈ (applyCalls calls rng).1) :
    w.frequency = sumCounts w.nextWords :=
  ((regInv_applyCalls calls rng) w hw).1

/-- C10 witness: the word created by ingesting ["a","b"] satisfies the
invariant. -/
theorem frequency_eq_successor_sum_witness :
    wABword ∈ (applyCalls [["a", "b"]] rngHalf).1 ∧
    wABword.frequency = sumCounts wABword.nextWords := by
  have hm : wABword ∈ (applyCalls [["a", "b"]] rngHalf).1 := by
    rw [show (applyCalls [["a", "b"]] rngHalf).1 = [wABword] from rfl]
    exact List.mem_singleton.mpr rfl
  exact ⟨hm, frequency_eq_successor_sum [["a", "b"]] rngHalf wABword hm⟩


/-! C9: behaviour at capacity -/

theorem wmGet_replicate_ne (n : Nat) (w : WordData) (k : String) (h : w.word ≠ k) :
    wmGet (List.replicate n w) k = none := by
  induction n with
  | zero => rfl
  | succ n ih => rw [List.replicate_succ, wmGet_cons, if_neg h, ih]

theorem bigRegA_length : bigRegA.length = MAX_WORDS := by
  show (wA2 :: List.replicate 99999 wZ1).length = MAX_WORDS
  rw [List.length_cons, List.length_replicate]
  rfl

theorem bigRegZ_length : bigRegZ.length = MAX_WORDS := by
  show (List.replicate 100000 wZ1).length = MAX_WORDS
  rw [List.length_replicate]
  rfl

/-- C9: with the registry at capacity (length = MAX_WORDS), a pair whose
current token names an existing word still updates it normally —
frequency + 1 and successor count + 1 — and still appends a brand-new
successor key (whether or not that key names any registry word); only a
pair whose current token is a new word is dropped without mutation. -/
theorem capacity_full_behaviour :
    (∀ rng m c cur next w, m.length = MAX_WORDS → wmGet m cur = some w →
      stepPair rng (m, c) (cur, next) = (wmUpdate m cur (bumpWord next), c) ∧
      wmGet ((stepPair rng (m, c) (cur, next)).1) cur = some (bumpWord next w) ∧
      (bumpWord next w).frequency = w.frequency + 1 ∧
      mapGet (bumpWord next w).nextWords next
        = some ((mapGet w.nextWords next).getD 0 + 1) ∧
      (mapGet w.nextWords next = none →
        (bumpWord next w).nextWords = w.nextWords ++ [(next, 1)])) ∧
    (∀ rng m c cur next, wmGet m cur = none → ¬ m.length < MAX_WORDS →
      stepPair rng (m, c) (cur, next) = (m, c)) := by
  constructor
  · intro rng m c cur next w _ hw
    have hstep : stepPair rng (m, c) (cur, next) = (wmUpdate m cur (bumpWord next), c) := by
      simp [stepPair, hw]
    refine ⟨hstep, ?_, rfl, mapGet_mapSet_self _ _ _, ?_⟩
    · rw [hstep]
      show wmGet (wmUpdate m cur (bumpWord next)) cur = _
      rw [wmGet_wmUpdate_bump, hw]
      rfl
    · intro habs
      show mapSet w.nextWords next ((mapGet w.nextWords next).getD 0 + 1)
          = w.nextWords ++ [(next, 1)]
      rw [mapSet_of_absent w.nextWords next _ habs, habs]
      rfl
  · intro rng m c cur next hw hlen
    simp [stepPair, hw, hlen]

/-- C9 witness: a full registry whose first word is "a" still records the
never-promoted successor "c" under "a", while the unknown current word
"a" is dropped on a full registry that does not contain it. -/
theorem capacity_full_behaviour_witness :
    stepPair rngHalf (bigRegA, 0) ("a", "c")
      = (wmUpdate bigRegA "a" (bumpWord "c"), 0) ∧
    (bumpWord "c" wA2).nextWords = wA2.nextWords ++ [("c", 1)] ∧
    stepPair rngHalf (bigRegZ, 0) ("a", "b") = (bigRegZ, 0) := by
  have h1 := capacity_full_behaviour.1 rngHalf bigRegA 0 "a" "c" wA2 bigRegA_length rfl
  refine ⟨h1.1, h1.2.2.2.2 rfl, ?_⟩
  exact capacity_full_behaviour.2 rngHalf bigRegZ 0 "a" "b"
    (wmGet_replicate_ne 100000 wZ1 "a" (by decide))
    (by rw [bigRegZ_length]; exact Nat.lt_irrefl MAX_WORDS)

/-! C5: the encoder zero-fills unused cells -/

/-- C5 counterexample: after an update with a single word, grid position 4
(cell 1, beyond the word count) holds 0, not the value 1 that the texture
held there before the update — the encoder does force-clear unused
cells. -/
theorem encoder_no_clear_cex :
    updateWordData [wA2] (fun _ => (1 : ℚ)) 4 = 0 ∧ (0 : ℚ) ≠ (1 : ℚ) := by
  constructor
  · show (if 4 < LEN then
        (if 4 / 4 < ([wA2] : List WordData).length then encodeCell [wA2] (4 / 4) (4 % 4) else 0)
      else (1 : ℚ)) = 0
    rw [if_pos (by norm_num [LEN, TEXTURE_SIZE]), if_neg (by norm_num)]
  · norm_num

/-- C5 amended: after every encoder update, each grid cell at an index
beyond the current word count is zero-filled in all four channels (the
fresh buffer replaces the entire texture), so consumers may rely on
zero-fill, not on retention. -/
theorem encoder_zero_fill (ws : List WordData) (tex : Nat → ℚ) (p : Nat)
    (h1 : p < LEN) (h2 : ws.length ≤ p / 4) :
    updateWordData ws tex p = 0 := by
  show (if p < LEN then
      (if p / 4 < ws.length then encodeCell ws (p / 4) (p % 4) else 0)
    else tex p) = 0
  rw [if_pos h1, if_neg (Nat.not_lt.mpr h2)]

/-- C5 witness: position 4 with a one-word snapshot. -/
theorem encoder_zero_fill_witness :
    (4 : Nat) < LEN ∧ ([wA2] : List WordData).length ≤ 4 / 4 ∧
    updateWordData [wA2] (fun _ => (1 : ℚ)) 4 = 0 :=
  ⟨by norm_num [LEN, TEXTURE_SIZE], by norm_num,
    encoder_zero_fill [wA2] (fun _ => 1) 4 (by norm_num [LEN, TEXTURE_SIZE]) (by norm_num)⟩

/-! C7: per-cell encoding -/

theorem foldl_max_le (l : List WordData) (b : Nat) :
    ∀ a, a ≤ b → (∀ w ∈ l, w.frequency ≤ b) →
      l.foldl (fun acc w => max acc w.frequency) a ≤ b := by
  induction l with
  | nil => intro a ha _; exact ha
  | cons w t ih =>
    intro a ha hall
    rw [List.foldl_cons]
    exact ih (max a w.frequency) (max_le ha (hall w (List.mem_cons_self w t)))
      (fun q hq => hall q (List.mem_cons_of_mem w hq))

theorem le_foldl_max (l : List WordData) :
    ∀ a, a ≤ l.foldl (fun acc w => max acc w.frequency) a := by
  induction l with
  | nil => intro a; exact Nat.le_refl a
  | cons w t ih =>
    intro a
    rw [List.foldl_cons]
    exact le_trans (Nat.le_max_left a w.frequency) (ih (max a w.frequency))

theorem maxFreq_head_eq (w0 : WordData) (t : List WordData)
    (hmax : ∀ w ∈ w0 :: t, w.frequency ≤ w0.frequency) :
    maxFreq (w0 :: t) = w0.frequency := by
  apply Nat.le_antisymm
  · show (w0 :: t).foldl (fun acc w => max acc w.frequency) 0 ≤ w0.frequency
    exact foldl_max_le (w0 :: t) w0.frequency 0 (Nat.zero_le _) hmax
  · show w0.frequency ≤ (w0 :: t).foldl (fun acc w => max acc w.frequency) 0
    rw [List.foldl_cons]
    exact le_trans (Nat.le_max_right 0 w0.frequency) (le_foldl_max t (max 0 w0.frequency))

/-- C7: for every nonempty snapshot, the cell of the word at rank r holds
channel 0 = frequency divided by the snapshot maximum frequency, channel
1 = hue, channel 2 = saturation and channel 3 = 1; and whenever the
rank-0 word has the (tied or sole) maximum frequency, its channel-0 value
is exactly 1. -/
theorem encoder_channel_contract :
    (∀ ws tex r (hr : r < ws.length), r * 4 + 3 < LEN →
      updateWordData ws tex (r * 4)
          = ((ws.get ⟨r, hr⟩).frequency : ℚ) / (maxFreq ws : ℚ) ∧
      updateWordData ws tex (r * 4 + 1) = (ws.get ⟨r, hr⟩).hue ∧
      updateWordData ws tex (r * 4 + 2) = (ws.get ⟨r, hr⟩).saturation ∧
      updateWordData ws tex (r * 4 + 3) = 1) ∧
    (∀ w0 t tex, 0 < w0.frequency →
      (∀ w ∈ w0 :: t, w.frequency ≤ w0.frequency) →
      updateWordData (w0 :: t) tex 0 = 1) := by
  constructor
  · intro ws tex r hr hb
    have hget : ws[r]? = some (ws.get ⟨r, hr⟩) := by
      simp [List.getElem?_eq_getElem hr, List.get_eq_getElem]
    have hchan : ∀ ch, ch < 4 →
        updateWordData ws tex (r * 4 + ch) = encodeCell ws r ch := by
      intro ch hch
      have hlt : r * 4 + ch < LEN := by omega
      have hd : (r * 4 + ch) / 4 = r := by omega
      have hm : (r * 4 + ch) % 4 = ch := by omega
      show (if r * 4 + ch < LEN then
          (if (r * 4 + ch) / 4 < ws.length then
            encodeCell ws ((r * 4 + ch) / 4) ((r * 4 + ch) % 4) else 0)
        else tex (r * 4 + ch)) = encodeCell ws r ch
      rw [if_pos hlt, hd, hm, if_pos hr]
    refine ⟨?_, ?_, ?_, ?_⟩
    · have h0 := hchan 0 (by norm_num)
      rw [show r * 4 + 0 = r * 4 from rfl] at h0
      rw [h0]
      unfold encodeCell
      rw [hget]
      simp
    · rw [hchan 1 (by norm_num)]
      unfold encodeCell
      rw [hget]
      simp
    · rw [hchan 2 (by norm_num)]
      unfold encodeCell
      rw [hget]
      simp
    · rw [hchan 3 (by norm_num)]
      unfold encodeCell
      rw [hget]
      simp
  · intro w0 t tex hpos hmax
    show (if 0 < LEN then
        (if 0 / 4 < (w0 :: t).length then encodeCell (w0 :: t) (0 / 4) (0 % 4) else 0)
      else tex 0) = 1
    rw [if_pos (by norm_num [LEN, TEXTURE_SIZE]), if_pos (by simp)]
    show encodeCell (w0 :: t) 0 0 = 1
    unfold encodeCell
    rw [List.getElem?_cons_zero]
    simp only [if_pos rfl]
    rw [maxFreq_head_eq w0 t hmax]
    exact div_self (by exact_mod_cast Nat.pos_iff_ne_zero.mp hpos)

/-- C7 witness: on the two-word snapshot [wA2, wB1], channel 3 of cell 1
is 1 and the channel-0 value of cell 0 is exactly 1. -/
theorem encoder_channel_contract_witness :
    (1 : Nat) < ([wA2, wB1] : List WordData).length ∧
    updateWordData [wA2, wB1] (fun _ => (0 : ℚ)) (1 * 4 + 3) = 1 ∧
    updateWordData [wA2, wB1] (fun _ => (0 : ℚ)) 0 = 1 := by
  have hr : (1 : Nat) < ([wA2, wB1] : List WordData).length := by norm_num
  refine ⟨hr, (encoder_channel_contract.1 [wA2, wB1] (fun _ => 0) 1 hr
    (by norm_num [LEN, TEXTURE_SIZE])).2.2.2, ?_⟩
  exact encoder_channel_contract.2 wA2 [wB1] (fun _ => 0) (by decide) (by decide)

/-! C3: snapshot ordering -/

/-- C3 counterexample: after the three `demo3calls` ingestions both words
have frequency 2, "a" was inserted first, yet the snapshot is ["b","a"],
while the spec's first-inserted-wins ordering demands ["a","b"]. -/
theorem snapshot_order_cex :
    demo3.map (fun w => w.word) = ["b", "a"] ∧
    demo3.map (fun w => w.frequency) = [2, 2] ∧
    (specSnapshot demo3calls rngHalf).map (fun w => w.word) = ["a", "b"] ∧
    demo3.map (fun w => w.word) ≠ (specSnapshot demo3calls rngHalf).map (fun w => w.word) := by
  refine ⟨by decide, by decide, by decide, by decide⟩

/-- C3 amended: every snapshot is sorted by frequency descending (and
re-reading the unchanged state trivially yields the same sequence), but
ties are broken by the previous snapshot's order with newly created words
appended — not by global first-insertion order, as `demo3calls`
witnesses. -/
theorem snapshot_order_amended :
    (∀ prevWords ts rng c, List.Sorted freqGe ((addWords prevWords ts rng c).1)) ∧
    demo3.map (fun w => w.word) = ["b", "a"] := by
  constructor
  · intro prevWords ts rng c
    exact List.sorted_insertionSort freqGe _
  · decide

/-! C6: the ["a","b","a","b"] vocabulary test -/

/-- C6 counterexample: feeding ["a","b","a","b"] twice and ["a","b"] once
gives "a" frequency 5 (not 3), and "b" does exist as a word — the pair
("b","a") inside ["a","b","a","b"] makes "b" a current token. -/
theorem vocab_growth_cex :
    (wmGet demo6 "a").map (fun w => w.frequency) = some 5 ∧
    ¬ (wmGet demo6 "a").map (fun w => w.frequency) = some 3 ∧
    (wmGet demo6 "b").isSome = true := by
  refine ⟨by decide, by decide, by decide⟩

/-- C6 amended: that input yields "a" with frequency 5 and successors
{"b": 5}, and "b" with frequency 2 and successors {"a": 2}. -/
theorem vocab_growth_amended :
    (wmGet demo6 "a").map (fun w => (w.frequency, w.nextWords)) = some (5, [("b", 5)]) ∧
    (wmGet demo6 "b").map (fun w => (w.frequency, w.nextWords)) = some (2, [("a", 2)]) := by
  refine ⟨by decide, by decide⟩

/-! C4: the walk reads the stale pre-call state -/

/-- C4: on a fresh registry, processInput(["a","b"]) ingests "a" into the
state that `setWords` will commit, yet its own walk reads the stale
`words` closure (the pre-call state), where neither "a" nor "b" exists,
and returns the empty output — the seed's updates are not visible to the
walk. -/
theorem walk_reads_stale_state :
    (processInput [] ["a", "b"] rngHalf 0).2 = [] ∧
    (wmGet ((processInput [] ["a", "b"] rngHalf 0).1.1) "a").map
      (fun w => (w.frequency, w.nextWords)) = some (1, [("b", 1)]) ∧
    wmGet [] "a" = none ∧ wmGet [] "b" = none :=
  ⟨by decide, by decide, rfl, rfl⟩

/-! C8: determinism and the greedy pick -/

theorem orderedInsert_cons_head (a b : String × Nat) (t : List (String × Nat)) :
    (List.orderedInsert pairGe a (b :: t)).head? = some (if pairGe a b then a else b) := by
  show (if pairGe a b then a :: b :: t else b :: List.orderedInsert pairGe a t).head? = _
  by_cases h : pairGe a b
  · rw [if_pos h, if_pos h]
    rfl
  · rw [if_neg h, if_neg h]
    rfl

theorem pick_first_max (l : List (String × Nat)) (hne : l ≠ []) :
    ∃ p, p ∈ l ∧ (sortPairs l).head? = some p ∧ (∀ q ∈ l, q.2 ≤ p.2) ∧
      ∃ l1 l2, l = l1 ++ p :: l2 ∧ ∀ q ∈ l1, q.2 < p.2 := by
  induction l with
  | nil => exact absurd rfl hne
  | cons x t ih =>
    cases t with
    | nil =>
      refine ⟨x, List.mem_singleton_self x, rfl, ?_, [], [], rfl, ?_⟩
      · intro q hq
        rw [List.mem_singleton] at hq
        rw [hq]
      · intro q hq
        exact absurd hq (List.not_mem_nil q)
    | cons y u =>
      obtain ⟨p, hmem, hhead, hmax, l1, l2, hdecomp, hlt⟩ := ih (List.cons_ne_nil y u)
      obtain ⟨rest, hrest⟩ : ∃ rest, sortPairs (y :: u) = p :: rest := by
        cases hsp : sortPairs (y :: u) with
        | nil =>
          rw [hsp] at hhead
          exact absurd hhead (by simp)
        | cons a r =>
          rw [hsp] at hhead
          simp only [List.head?_cons, Option.some.injEq] at hhead
          exact ⟨r, by rw [← hhead]⟩
      have hsort : sortPairs (x :: y :: u)
          = List.orderedInsert pairGe x (sortPairs (y :: u)) := rfl
      by_cases hcmp : pairGe x p
      · refine ⟨x, List.mem_cons_self x (y :: u), ?_, ?_, [], y :: u, rfl, ?_⟩
        · rw [hsort, hrest, orderedInsert_cons_head, if_pos hcmp]
        · intro q hq
          rcases List.mem_cons.mp hq with h | h
          · rw [h]
          · exact le_trans (hmax q h) hcmp
        · intro q hq
          exact absurd hq (List.not_mem_nil q)
      · have hxlt : x.2 < p.2 := Nat.lt_of_not_le hcmp
        refine ⟨p, List.mem_cons_of_mem x hmem, ?_, ?_, x :: l1, l2,
          by rw [hdecomp, List.cons_append], ?_⟩
        · rw [hsort, hrest, orderedInsert_cons_head, if_neg hcmp]
        · intro q hq
          rcases List.mem_cons.mp hq with h | h
          · rw [h]
            exact Nat.le_of_lt hxlt
          · exact hmax q h
        · intro q hq
          rcases List.mem_cons.mp hq with h | h
          · rw [h]
            exact hxlt
          · exact hlt q h

/-- C8: the walk's output depends only on the registry state and the seed
(two runs with different random streams return identical outputs), and
each step picks the successor with the highest count, breaking ties by
first-encountered-in-iteration-order. -/
theorem walker_deterministic :
    (∀ ws ts rng1 c1 rng2 c2,
      (processInput ws ts rng1 c1).2 = (processInput ws ts rng2 c2).2) ∧
    (∀ l : List (String × Nat), l ≠ [] →
      ∃ p, p ∈ l ∧ pickNext l = some p.1 ∧ (∀ q ∈ l, q.2 ≤ p.2) ∧
        ∃ l1 l2, l = l1 ++ p :: l2 ∧ ∀ q ∈ l1, q.2 < p.2) := by
  constructor
  · intro ws ts rng1 c1 rng2 c2
    rfl
  · intro l hne
    obtain ⟨p, hmem, hhead, hmax, l1, l2, hdec, hlt⟩ := pick_first_max l hne
    refine ⟨p, hmem, ?_, hmax, l1, l2, hdec, hlt⟩
    show (sortPairs l).head?.map (fun p => p.1) = some p.1
    rw [hhead]
    rfl

/-- C8 witness: on the table [("x",2),("y",3),("z",3)] the pick obeys the
first-maximum characterisation. -/
theorem walker_deterministic_witness :
    (([("x", 2), ("y", 3), ("z", 3)] : List (String × Nat)) ≠ []) ∧
    (∃ p, p ∈ ([("x", 2), ("y", 3), ("z", 3)] : List (String × Nat)) ∧
      pickNext [("x", 2), ("y", 3), ("z", 3)] = some p.1 ∧
      (∀ q ∈ ([("x", 2), ("y", 3), ("z", 3)] : List (String × Nat)), q.2 ≤ p.2) ∧
      ∃ l1 l2, ([("x", 2), ("y", 3), ("z", 3)] : List (String × Nat)) = l1 ++ p :: l2 ∧
        ∀ q ∈ l1, q.2 < p.2) :=
  ⟨by decide, walker_deterministic.2 [("x", 2), ("y", 3), ("z", 3)] (by decide)⟩


end LightNN
